import Mathlib

/-!
Verification of the axiprop propagator core (`src/axiprop/lib.py`).

The development shallowly embeds the propagator engine of `PropagatorCommon`
and its three Transform Strategy subclasses (`PropagatorSymmetric`,
`PropagatorResampling`, `PropagatorFFT2`).  Machine floating point is
modelled by exact real/complex arithmetic; numpy arrays become functions
out of `Fin`/index types; fallible Python code (assertions, IndexError,
NameError) becomes `Except`-valued definitions.

The array backend (`axiprop.backends`) is part of the repository but is not
present under `src/`; its operations are modelled from the spec, section 6:
elementwise `exp`/`sqrt`/`abs` are the mathematical functions,
`make_matmul` is matrix-vector multiplication, `make_fft2` is the direct
2D discrete Fourier transform pair, `inv_on_host`/`inv_sqr_on_host` are
matrix inversion.  Bessel evaluation (`scipy.special.jn`, `jn_zeros`) is an
external pure-math primitive and is passed in as an abstract oracle.
-/

noncomputable section

open scoped BigOperators

/-- Models numpy complex dtypes: the propagator stores a configured `dtype`
(`self.dtype`) and asserts it against field arguments on some entry points. -/
inductive DType
  | c64
  | c128
  deriving DecidableEq

/-- A propagator instance as set up by the constructors in `lib.py`:
a `kz` spectral grid (`init_kz`), a squared transverse spectral grid
`kr2` (`init_kr` / `init_xykxy_fft2`), a configured dtype, and the
transform pair `TST`/`iTST` supplied by the concrete subclass.
`Idx` is the transverse index set (`Fin Nr` for the radial propagators,
`Fin Nx × Fin Ny` for `PropagatorFFT2`); `IdxNew` indexes the possibly
truncated/resampled output grid (`shape_trns_new`). -/
structure Propagator where
  Nkz : ℕ
  Idx : Type
  IdxNew : Type
  dtype : DType
  kz : Fin Nkz → ℝ
  kr2 : Idx → ℝ
  TST : (Idx → ℂ) → (Idx → ℂ)
  iTST : (Idx → ℂ) → (IdxNew → ℂ)

/-- Models the numpy expression `(phase_loc >= 0.) * phase_loc`
(clamp-to-zero of negative values) used in `step` and `initiate_stepping`. -/
def clampPos (x : ℝ) : ℝ := if 0 ≤ x then x else 0

/-- Phase rate used by `PropagatorCommon.step` (lib.py:263-264):
`sqrt((kz[ikz]**2 - kr2 >= 0) * (kz[ikz]**2 - kr2))`. -/
def phaseStep (P : Propagator) (ikz : Fin P.Nkz) (j : P.Idx) : ℝ :=
  Real.sqrt (clampPos (P.kz ikz ^ 2 - P.kr2 j))

/-- Phase rate used by `PropagatorCommon.steps` (lib.py:314-315):
`ik_loc = sqrt(abs(kz[ikz]**2 - kr2))` — absolute value, not clamp. -/
def ikLoc (P : Propagator) (ikz : Fin P.Nkz) (j : P.Idx) : ℝ :=
  Real.sqrt |P.kz ikz ^ 2 - P.kr2 j|

/-- One frequency slice of `PropagatorCommon.step` (lib.py:259-268):
forward transform, multiply by `exp(1j * dz * phase_loc)` with the
clamp-to-zero phase, inverse transform. -/
def stepSlice (P : Propagator) (dz : ℝ) (ikz : Fin P.Nkz) (uloc : P.Idx → ℂ) :
    P.IdxNew → ℂ :=
  P.iTST (fun j => P.TST uloc j * Complex.exp (Complex.I * (dz * phaseStep P ikz j)))

/-- `PropagatorCommon.step` (lib.py:231-275), value semantics: the slice
loop applied to every `ikz`. -/
def step (P : Propagator) (u : Fin P.Nkz → P.Idx → ℂ) (dz : ℝ) :
    Fin P.Nkz → P.IdxNew → ℂ :=
  fun ikz => stepSlice P dz ikz (u ikz)

/-- Inner loop of `PropagatorCommon.steps` (lib.py:316-319): starting from a
spectral state `uht`, for each entry `d` of the schedule multiply the state
by `exp(1j * d * ik_loc)` in place and record the inverse transform.
The source iterates `ikz` outer and steps inner; frequency slices share no
state, so the slice-major and step-major orders produce the same stack and
the step-major order is used here. -/
def stepsLoop (P : Propagator) (ik : ∀ _ : Fin P.Nkz, P.Idx → ℝ)
    (uht : Fin P.Nkz → P.Idx → ℂ) :
    List ℝ → List (Fin P.Nkz → P.IdxNew → ℂ)
  | [] => []
  | d :: ds =>
    let uht' := fun i j => uht i j * Complex.exp (Complex.I * (d * ik i j))
    (fun i => P.iTST (uht' i)) :: stepsLoop P ik uht' ds

/-- `PropagatorCommon.steps` (lib.py:277-331) with the `dz` schedule given
directly (`z_axis=None`): assert aside (see `stepsChecked`), an empty
schedule returns `None` (lib.py:301-303); otherwise each slice is
transformed once and the schedule is folded with the absolute-value phase
`ik_loc`.  The result is the stack `u_steps` indexed by step. -/
def steps (P : Propagator) (u : Fin P.Nkz → P.Idx → ℂ) (dzs : List ℝ) :
    Option (List (Fin P.Nkz → P.IdxNew → ℂ)) :=
  if dzs.length = 0 then none
  else some (stepsLoop P (ikLoc P) (fun i => P.TST (u i)) dzs)

/-- Session state of the incremental stepping mode
(`stepping_image`, `phase_loc`, `z_propagation`; lib.py:346-348). -/
structure SteppingState (P : Propagator) where
  image : Fin P.Nkz → P.Idx → ℂ
  phase : Fin P.Nkz → P.Idx → ℝ
  z : ℝ

/-- `PropagatorCommon.initiate_stepping` (lib.py:333-357): cache the forward
transform of every slice and the clamp-to-zero phase array, reset the
propagated distance. -/
def initiate_stepping (P : Propagator) (u : Fin P.Nkz → P.Idx → ℂ) :
    SteppingState P :=
  { image := fun i => P.TST (u i)
    phase := fun i j => Real.sqrt (clampPos (P.kz i ^ 2 - P.kr2 j))
    z := 0 }

/-- `PropagatorCommon.stepping` (lib.py:359-386): multiply the cached
spectral state in place by `exp(1j * dz * phase_loc)`, inverse-transform
every slice, advance the running distance.  Returns the output field and
the mutated session state. -/
def stepping (P : Propagator) (st : SteppingState P) (dz : ℝ) :
    (Fin P.Nkz → P.IdxNew → ℂ) × SteppingState P :=
  let image' := fun i j => st.image i j * Complex.exp (Complex.I * (dz * st.phase i j))
  (fun i => P.iTST (image' i),
   { image := image', phase := st.phase, z := st.z + dz })

/-- The sequence of outputs produced by repeated `stepping(d_k)` calls on a
session state, one output per schedule entry. -/
def steppingRun (P : Propagator) (st : SteppingState P) :
    List ℝ → List (Fin P.Nkz → P.IdxNew → ℂ)
  | [] => []
  | d :: ds => (stepping P st d).1 :: steppingRun P (stepping P st d).2 ds

/-! Concrete one-mode propagators used as witnesses and counterexamples:
identity transforms, one frequency slice, one transverse node. -/

/-- Concrete propagator with `kz = 0`, `kr² = 1`: its only mode is
evanescent (`kr > kz`). -/
abbrev Pevan : Propagator :=
  { Nkz := 1, Idx := Fin 1, IdxNew := Fin 1, dtype := DType.c128
    kz := fun _ => 0, kr2 := fun _ => 1, TST := id, iTST := id }

/-- Concrete propagator with `kz = 1`, `kr² = 0`: its only mode is
propagating (`kz² ≥ kr²`). -/
abbrev Pprop : Propagator :=
  { Nkz := 1, Idx := Fin 1, IdxNew := Fin 1, dtype := DType.c128
    kz := fun _ => 1, kr2 := fun _ => 0, TST := id, iTST := id }

/-- Constant unit field on a one-slice, one-node grid. -/
abbrev uOne : Fin 1 → Fin 1 → ℂ := fun _ _ => 1

/-- C1 counterexample: on `Pevan` the only mode has `kr = 1 > 0 = kz[0]` and
the distance `dz = 1` is nonzero, yet `steps` multiplies the mode by the
unimodular factor `exp(i·sqrt|kz²−kr²|)`: the returned amplitude equals the
input amplitude `1`, so `steps` does not produce an amplitude-modified
(growing or decaying) result. -/
theorem C1_steps_amplitude_not_modified :
    (Pevan.kz 0) ^ 2 < Pevan.kr2 0 ∧ (1 : ℝ) ≠ 0 ∧
      steps Pevan uOne [1] =
        some [fun _ _ => Complex.exp (Complex.I * 1)] ∧
      Complex.abs (Complex.exp (Complex.I * 1)) = Complex.abs (uOne 0 0) := by
  refine ⟨by norm_num [Pevan], one_ne_zero, ?_, ?_⟩
  · simp only [steps, stepsLoop, ikLoc, Pevan, uOne, List.length_cons,
      List.length_nil, id]
    norm_num [Real.sqrt_one]
  · simp [uOne, Complex.abs_exp]

/-- C1 amended: for an evanescent mode (`kr² > kz[i]²`) and any distance
`dz`, the single-step phase rate is zero — `step` leaves the mode's
spectral value (hence its amplitude) unchanged — while the `steps` phase
rate `sqrt|kz²−kr²|` is strictly positive but real, so the factor applied
by `steps` is unimodular: the mode's phase changes, its amplitude never
does. -/
theorem C1_evanescent_policy (P : Propagator) (i : Fin P.Nkz) (j : P.Idx)
    (hev : P.kz i ^ 2 < P.kr2 j) (dz : ℝ) :
    phaseStep P i j = 0 ∧ 0 < ikLoc P i j ∧
      (∀ c : ℂ, c * Complex.exp (Complex.I * (dz * phaseStep P i j)) = c) ∧
      (∀ c : ℂ,
        Complex.abs (c * Complex.exp (Complex.I * (dz * ikLoc P i j))) =
          Complex.abs c) := by
  have hneg : P.kz i ^ 2 - P.kr2 j < 0 := by linarith
  have hphase : phaseStep P i j = 0 := by
    unfold phaseStep clampPos
    rw [if_neg (not_le.mpr hneg), Real.sqrt_zero]
  refine ⟨hphase, ?_, ?_, ?_⟩
  · unfold ikLoc
    exact Real.sqrt_pos.mpr (abs_pos.mpr (ne_of_lt hneg))
  · intro c
    rw [hphase]
    push_cast
    rw [mul_zero, mul_zero, Complex.exp_zero, mul_one]
  · intro c
    rw [map_mul, Complex.abs_exp]
    have : (Complex.I * ((dz : ℂ) * (ikLoc P i j : ℝ))).re = 0 := by
      simp [Complex.mul_re]
    rw [this, Real.exp_zero, mul_one]

/-- C1 witness: the amended statement instantiated on the concrete
evanescent propagator `Pevan` with `dz = 1`. -/
theorem C1_evanescent_policy_witness :
    (Pevan.kz 0) ^ 2 < Pevan.kr2 0 ∧
      (phaseStep Pevan 0 0 = 0 ∧ 0 < ikLoc Pevan 0 0 ∧
        (∀ c : ℂ, c * Complex.exp (Complex.I * (1 * phaseStep Pevan 0 0)) = c) ∧
        (∀ c : ℂ,
          Complex.abs (c * Complex.exp (Complex.I * (1 * ikLoc Pevan 0 0))) =
            Complex.abs c)) :=
  ⟨by norm_num [Pevan], C1_evanescent_policy Pevan 0 0 (by norm_num [Pevan]) 1⟩

/-- Running a stepping session whose cached phase is `ph` produces the same
outputs as the inner loop of `steps` driven by the phase family `ph`. -/
theorem steppingRun_eq_stepsLoop (P : Propagator)
    (ph : ∀ _ : Fin P.Nkz, P.Idx → ℝ) :
    ∀ (dzs : List ℝ) (img : Fin P.Nkz → P.Idx → ℂ) (z : ℝ),
      steppingRun P ⟨img, ph, z⟩ dzs = stepsLoop P ph img dzs := by
  intro dzs
  induction dzs with
  | nil => intro img z; rfl
  | cons d ds ih =>
      intro img z
      simp only [steppingRun, stepping, stepsLoop]
      exact congrArg _ (ih _ _)

/-- C3: when every mode is propagating (`kz[i]² ≥ kr²[j]` for all `i`, `j`)
the clamp-to-zero phase cached by `initiate_stepping` coincides with the
absolute-value phase of `steps`, so the outputs of the incremental
`stepping(d_k)` calls are exactly the per-step entries of the single
`steps(u, [d1, d2, ...])` stack. -/
theorem C3_incremental_matches_batch (P : Propagator)
    (h : ∀ (i : Fin P.Nkz) (j : P.Idx), P.kr2 j ≤ P.kz i ^ 2)
    (u : Fin P.Nkz → P.Idx → ℂ) (dzs : List ℝ) (hne : dzs ≠ []) :
    steps P u dzs = some (steppingRun P (initiate_stepping P u) dzs) := by
  have hphase :
      (fun (i : Fin P.Nkz) (j : P.Idx) =>
          Real.sqrt (clampPos (P.kz i ^ 2 - P.kr2 j))) =
        fun i j => ikLoc P i j := by
    funext i j
    have hnn : (0 : ℝ) ≤ P.kz i ^ 2 - P.kr2 j := by linarith [h i j]
    unfold clampPos ikLoc
    rw [if_pos hnn, abs_of_nonneg hnn]
  unfold steps initiate_stepping
  rw [if_neg (by simpa using hne)]
  rw [hphase, steppingRun_eq_stepsLoop]

/-- C3 witness: the equivalence instantiated on the concrete propagating
grid `Pprop` (where `kr² = 0 ≤ 1 = kz²`) with the schedule `[2]`. -/
theorem C3_incremental_matches_batch_witness :
    Pprop.kr2 0 ≤ Pprop.kz 0 ^ 2 ∧ ([2] : List ℝ) ≠ [] ∧
      steps Pprop uOne [2] =
        some (steppingRun Pprop (initiate_stepping Pprop uOne) [2]) :=
  ⟨by norm_num [Pprop], by simp,
    C3_incremental_matches_batch Pprop (fun i j => by norm_num [Pprop]) uOne [2]
      (by simp)⟩

/-! Transform Strategies.

`PropagatorSymmetric` builds the QDHT matrix `TM` and the scale vector
`_j` from Bessel values (`init_TST`, lib.py:497-532); `TST` divides by
`_j` then matrix-multiplies, `iTST` matrix-multiplies by the first
`Nr_new` rows and multiplies by the truncated scale vector
(lib.py:534-547).  `PropagatorResampling` builds `TM` as the numeric
inverse of `jn(mode, r ⊗ kr)` and `invTM` as `jn(mode, r_new ⊗ kr)`
(lib.py:672-691).  The Bessel function `jn` is an external primitive and
is abstracted as an oracle `jnO : ℕ → ℝ → ℝ`. -/

/-- Scale vector `self._j = |jn(mode+1, alpha)| / Rmax` (lib.py:515). -/
def symJvec (jnO : ℕ → ℝ → ℝ) (mode : ℕ) {Nr : ℕ} (alpha : Fin Nr → ℝ)
    (Rmax : ℝ) : Fin Nr → ℝ :=
  fun j => |jnO (mode + 1) (alpha j)| / Rmax

/-- QDHT matrix `self.TM` (lib.py:516-520):
`2 * jn(mode, alpha_j * alpha_k / alpha_np1)
 / (alpha_np1 * |jn(mode+1, alpha_j)| * |jn(mode+1, alpha_k)|)`. -/
def symTMmat (jnO : ℕ → ℝ → ℝ) (mode : ℕ) {Nr : ℕ} (alpha : Fin Nr → ℝ)
    (alpha_np1 : ℝ) : Matrix (Fin Nr) (Fin Nr) ℝ :=
  fun j k => 2 * jnO mode (alpha j * alpha k / alpha_np1) /
    (alpha_np1 * (|jnO (mode + 1) (alpha j)| * |jnO (mode + 1) (alpha k)|))

/-- `PropagatorSymmetric.TST` (lib.py:534-539): `u_loc /= _j` then
`u_ht = TM @ u_loc`. -/
def symTST {Nr : ℕ} (TM : Matrix (Fin Nr) (Fin Nr) ℂ) (jvec : Fin Nr → ℂ)
    (u : Fin Nr → ℂ) : Fin Nr → ℂ :=
  TM.mulVec (fun k => u k / jvec k)

/-- `PropagatorSymmetric.iTST` (lib.py:541-547): `u_iht = TM[:Nr_new] @ u_ht`
then `u_iht *= _j[:Nr_new]`; row truncation is the embedding
`Fin.castLE h : Fin NrNew → Fin Nr`. -/
def symITST {Nr NrNew : ℕ} (h : NrNew ≤ Nr) (TM : Matrix (Fin Nr) (Fin Nr) ℂ)
    (jvec : Fin Nr → ℂ) (v : Fin Nr → ℂ) : Fin NrNew → ℂ :=
  fun j => TM.mulVec v (Fin.castLE h j) * jvec (Fin.castLE h j)

/-- Modelled from the spec: the backend primitive `inv_on_host` (general
matrix inversion, spec section 6) of the missing `axiprop.backends`
module, as exact matrix inversion. -/
def inv_on_host {n : ℕ} (A : Matrix (Fin n) (Fin n) ℂ) :
    Matrix (Fin n) (Fin n) ℂ := A⁻¹

/-- Modelled from the spec: the backend primitive `inv_sqr_on_host`
(stabilized inversion specialized for zero-order mode, spec section 6) of
the missing `axiprop.backends` module, as exact matrix inversion. -/
def inv_sqr_on_host {n : ℕ} (A : Matrix (Fin n) (Fin n) ℂ) :
    Matrix (Fin n) (Fin n) ℂ := A⁻¹

/-- Forward DHT matrix base `jn(mode, r[:,None] * kr[None,:])`
(lib.py:672), from the Bessel oracle and the two grids. -/
def resJmat (jnO : ℕ → ℝ → ℝ) (mode : ℕ) {M Nr : ℕ} (r : Fin M → ℝ)
    (kr : Fin Nr → ℝ) : Matrix (Fin M) (Fin Nr) ℝ :=
  fun j k => jnO mode (r j * kr k)

/-- `PropagatorResampling.TM` (lib.py:672-678): the numerically inverted
forward matrix, branching on the mode order. -/
def resTMmat (jnO : ℕ → ℝ → ℝ) (mode : ℕ) {Nr : ℕ} (r kr : Fin Nr → ℝ) :
    Matrix (Fin Nr) (Fin Nr) ℂ :=
  if mode = 0 then inv_sqr_on_host ((resJmat jnO mode r kr).map Complex.ofReal)
  else inv_on_host ((resJmat jnO mode r kr).map Complex.ofReal)

/-- `PropagatorResampling.TST` (lib.py:693-697): `u_ht = TM @ u_loc`. -/
def resTST {Nr : ℕ} (TM : Matrix (Fin Nr) (Fin Nr) ℂ) (u : Fin Nr → ℂ) :
    Fin Nr → ℂ :=
  TM.mulVec u

/-- `PropagatorResampling.iTST` (lib.py:699-703): `u_iht = invTM @ u_ht`
with `invTM = jn(mode, r_new[:,None] * kr[None,:])` (lib.py:680-681). -/
def resITST {Nr NrNew : ℕ} (invTM : Matrix (Fin NrNew) (Fin Nr) ℂ)
    (v : Fin Nr → ℂ) : Fin NrNew → ℂ :=
  invTM.mulVec v

/-! The FFT2 strategy.  Modelled from the spec: the backend primitive
`make_fft2` of the missing `axiprop.backends` module provides the
forward/inverse pair of "direct 2D discrete Fourier transforms over the
`(Nx, Ny)` grid" (spec sections 4.2 and 6); the 2D transform is the
standard separable DFT, written with the inner-axis sum factored. -/

/-- Discrete Fourier kernel `exp(2 pi i s / N)`. -/
def dftKernel (N : ℕ) (s : ℤ) : ℂ :=
  Complex.exp (2 * Real.pi * Complex.I * s / N)

/-- One-dimensional forward DFT: `v[p] = sum_a w[a] * exp(-2 pi i p a / N)`. -/
def dft1 (N : ℕ) (w : Fin N → ℂ) : Fin N → ℂ :=
  fun p => ∑ a : Fin N, w a * dftKernel N (-(p.val * a.val))

/-- One-dimensional inverse DFT:
`w[a] = N⁻¹ * sum_p v[p] * exp(2 pi i p a / N)`. -/
def idft1 (N : ℕ) (v : Fin N → ℂ) : Fin N → ℂ :=
  fun a => (N : ℂ)⁻¹ * ∑ p : Fin N, v p * dftKernel N (p.val * a.val)

/-- `PropagatorFFT2.TST` (lib.py:790-794): 2D forward DFT, applied along
the `y` axis then the `x` axis. -/
def dft2 (Nx Ny : ℕ) (u : Fin Nx → Fin Ny → ℂ) : Fin Nx → Fin Ny → ℂ :=
  fun p q => dft1 Nx (fun a => dft1 Ny (u a) q) p

/-- `PropagatorFFT2.iTST` (lib.py:796-800): 2D inverse DFT. -/
def idft2 (Nx Ny : ℕ) (v : Fin Nx → Fin Ny → ℂ) : Fin Nx → Fin Ny → ℂ :=
  fun a b => idft1 Nx (fun p => idft1 Ny (v p) b) a

theorem dftKernel_add (N : ℕ) (s t : ℤ) :
    dftKernel N (s + t) = dftKernel N s * dftKernel N t := by
  unfold dftKernel
  rw [← Complex.exp_add]
  congr 1
  push_cast
  ring

theorem dftKernel_zero (N : ℕ) : dftKernel N 0 = 1 := by
  simp [dftKernel]

theorem dftKernel_nat_mul (N : ℕ) (m : ℤ) (p : ℕ) :
    dftKernel N (p * m) = dftKernel N m ^ p := by
  unfold dftKernel
  rw [← Complex.exp_nat_mul]
  congr 1
  push_cast
  ring

theorem dftKernel_pow_card (N : ℕ) (hN : N ≠ 0) (m : ℤ) :
    dftKernel N m ^ N = 1 := by
  rw [← dftKernel_nat_mul]
  unfold dftKernel
  rw [show (2 * Real.pi * Complex.I * ((N : ℤ) * m : ℤ) / N : ℂ) =
      (m : ℤ) * (2 * Real.pi * Complex.I) by
    have : (N : ℂ) ≠ 0 := Nat.cast_ne_zero.mpr hN
    field_simp
    ring]
  exact Complex.exp_int_mul_two_pi_mul_I m

theorem dftKernel_ne_one (N : ℕ) (m : ℤ) (hm : m ≠ 0) (hlt : m.natAbs < N) :
    dftKernel N m ≠ 1 := by
  intro h
  unfold dftKernel at h
  rw [Complex.exp_eq_one_iff] at h
  obtain ⟨n, hn⟩ := h
  have hN : N ≠ 0 := by
    intro h0
    rw [h0] at hlt
    exact Nat.not_lt_zero _ hlt
  have hNc : (N : ℂ) ≠ 0 := Nat.cast_ne_zero.mpr hN
  have hfac : (2 * Real.pi * Complex.I : ℂ) ≠ 0 := by
    simp [Real.pi_ne_zero, Complex.I_ne_zero, Complex.ext_iff]
  have hmn : (m : ℂ) = n * N := by
    have h2 : (2 * Real.pi * Complex.I) * m = (2 * Real.pi * Complex.I) * (n * N) := by
      field_simp at hn
      linear_combination hn
    exact mul_left_cancel₀ hfac h2
  have hmz : m = n * N := by exact_mod_cast hmn
  have hnz : n ≠ 0 := by
    intro h0
    rw [h0, zero_mul] at hmz
    exact hm hmz
  have : N ≤ m.natAbs := by
    rw [hmz, Int.natAbs_mul, Int.natAbs_ofNat]
    have h1 : 1 ≤ n.natAbs := Nat.one_le_iff_ne_zero.mpr (Int.natAbs_ne_zero.mpr hnz)
    calc N = 1 * N := (one_mul N).symm
    _ ≤ n.natAbs * N := Nat.mul_le_mul_right N h1
  omega

theorem dftKernel_geom_sum_zero (N : ℕ) (m : ℤ) (hm : m ≠ 0)
    (hlt : m.natAbs < N) :
    ∑ p : Fin N, dftKernel N (p.val * m) = 0 := by
  have hN : N ≠ 0 := by
    intro h0
    rw [h0] at hlt
    exact Nat.not_lt_zero _ hlt
  have hsum : ∑ p : Fin N, dftKernel N (p.val * m) =
      ∑ i ∈ Finset.range N, dftKernel N m ^ i := by
    rw [Fin.sum_univ_eq_sum_range (fun i => dftKernel N ((i : ℤ) * m))]
    exact Finset.sum_congr rfl fun i _ => dftKernel_nat_mul N m i
  rw [hsum]
  have hgeom := geom_sum_mul (dftKernel N m) N
  rw [dftKernel_pow_card N hN m, sub_self] at hgeom
  have hne : dftKernel N m - 1 ≠ 0 :=
    sub_ne_zero.mpr (dftKernel_ne_one N m hm hlt)
  exact (mul_eq_zero.mp hgeom).resolve_right hne

theorem dftKernel_orth (N : ℕ) (x a : Fin N) :
    ∑ p : Fin N, dftKernel N (-(p.val * a.val)) * dftKernel N (p.val * x.val) =
      if x = a then (N : ℂ) else 0 := by
  have hterm : ∀ p : Fin N,
      dftKernel N (-(p.val * a.val)) * dftKernel N (p.val * x.val) =
        dftKernel N (p.val * ((x.val : ℤ) - a.val)) := by
    intro p
    rw [← dftKernel_add]
    congr 1
    ring
  rw [Finset.sum_congr rfl fun p _ => hterm p]
  by_cases hxa : x = a
  · subst hxa
    simp [dftKernel_zero]
  · rw [if_neg hxa]
    apply dftKernel_geom_sum_zero
    · intro h0
      apply hxa
      have : x.val = a.val := by omega
      exact Fin.ext this
    · have hx := x.isLt
      have ha := a.isLt
      omega

/-- One-dimensional DFT inversion: the inverse transform exactly recovers
the input. -/
theorem dft1_inversion (N : ℕ) (w : Fin N → ℂ) : idft1 N (dft1 N w) = w := by
  funext a
  have hN : (N : ℂ) ≠ 0 := Nat.cast_ne_zero.mpr (Nat.pos_iff_ne_zero.mp a.pos)
  unfold idft1 dft1
  have hswap : ∑ p : Fin N,
      (∑ c : Fin N, w c * dftKernel N (-(p.val * c.val))) *
        dftKernel N (p.val * a.val) =
      ∑ c : Fin N, w c *
        ∑ p : Fin N, dftKernel N (-(p.val * c.val)) * dftKernel N (p.val * a.val) := by
    simp only [Finset.sum_mul, Finset.mul_sum]
    rw [Finset.sum_comm]
    exact Finset.sum_congr rfl fun c _ => Finset.sum_congr rfl fun p _ => by ring
  rw [hswap]
  have horth : ∀ c : Fin N,
      w c * ∑ p : Fin N,
        dftKernel N (-(p.val * c.val)) * dftKernel N (p.val * a.val) =
      w c * if a = c then (N : ℂ) else 0 := by
    intro c
    rw [dftKernel_orth N a c]
  rw [Finset.sum_congr rfl fun c _ => horth c]
  rw [Finset.sum_eq_single a]
  · rw [if_pos rfl]
    field_simp
  · intro b _ hb
    rw [if_neg (Ne.symm hb), mul_zero]
  · intro hnot
    exact absurd (Finset.mem_univ a) hnot

/-- The inverse 1D DFT along one axis commutes with a forward 1D DFT taken
along the other axis. -/
theorem idft1_dft1_comm (N M : ℕ) (F : Fin N → Fin M → ℂ) (p : Fin M)
    (b : Fin N) :
    idft1 N (fun q => ∑ c : Fin M, F q c * dftKernel M (-(p.val * c.val))) b =
      ∑ c : Fin M, idft1 N (fun q => F q c) b * dftKernel M (-(p.val * c.val)) := by
  unfold idft1
  simp only [Finset.sum_mul, Finset.mul_sum]
  rw [Finset.sum_comm]
  exact Finset.sum_congr rfl fun c _ => Finset.sum_congr rfl fun q _ => by ring

/-- Two-dimensional DFT inversion: `ifft2(fft2(u)) = u` exactly. -/
theorem dft2_inversion (Nx Ny : ℕ) (u : Fin Nx → Fin Ny → ℂ) :
    idft2 Nx Ny (dft2 Nx Ny u) = u := by
  funext a b
  unfold idft2 dft2
  have hinner : ∀ p : Fin Nx,
      idft1 Ny (fun q => dft1 Nx (fun c => dft1 Ny (u c) q) p) b =
        dft1 Nx (fun c => u c b) p := by
    intro p
    have h1 : (fun q => dft1 Nx (fun c => dft1 Ny (u c) q) p) =
        fun q => ∑ c : Fin Nx, dft1 Ny (u c) q * dftKernel Nx (-(p.val * c.val)) :=
      rfl
    rw [h1, idft1_dft1_comm]
    apply Finset.sum_congr rfl
    intro c _
    rw [show idft1 Ny (fun q => dft1 Ny (u c) q) b = u c b from
      congrFun (dft1_inversion Ny (u c)) b]
  rw [show (fun p => idft1 Ny (fun q => dft1 Nx (fun c => dft1 Ny (u c) q) p) b) =
      dft1 Nx (fun c => u c b) from funext hinner]
  exact congrFun (dft1_inversion Nx (fun c => u c b)) a

/-- C2: round trips of the three Transform Strategies with coinciding
input and output grids, and the zero-distance step.
For the Symmetric strategy the QDHT matrix is self-inverse — the exact
form of the discrete orthogonality that holds to machine precision for
the Bessel-root matrix — and the scale vector is nonvanishing; for the
Resampling strategy the DHT base matrix is invertible (its numeric
inversion is what the construction performs); the FFT2 round trip is
unconditional.  Any propagator whose transform pair round-trips returns
the field unchanged under `step(u, 0)` (identity phase). -/
theorem C2_roundtrip_and_zero_step :
    (∀ (Nr : ℕ) (TM : Matrix (Fin Nr) (Fin Nr) ℂ) (jvec : Fin Nr → ℂ),
        TM * TM = 1 → (∀ k, jvec k ≠ 0) →
        ∀ u : Fin Nr → ℂ,
          symITST (le_refl Nr) TM jvec (symTST TM jvec u) = u) ∧
    (∀ (Nr : ℕ) (J : Matrix (Fin Nr) (Fin Nr) ℂ), IsUnit J.det →
        ∀ u : Fin Nr → ℂ, resITST J (resTST (inv_on_host J) u) = u) ∧
    (∀ (Nx Ny : ℕ) (u : Fin Nx → Fin Ny → ℂ),
        idft2 Nx Ny (dft2 Nx Ny u) = u) ∧
    (∀ (Nkz : ℕ) (Idx : Type) (dt : DType) (kz : Fin Nkz → ℝ)
        (kr2 : Idx → ℝ) (T iT : (Idx → ℂ) → (Idx → ℂ)),
        (∀ v, iT (T v) = v) →
        ∀ u : Fin Nkz → Idx → ℂ,
          step ⟨Nkz, Idx, Idx, dt, kz, kr2, T, iT⟩ u 0 = u) := by
  refine ⟨?_, ?_, ?_, ?_⟩
  · intro Nr TM jvec hTM hj u
    funext j
    unfold symITST symTST
    rw [Matrix.mulVec_mulVec, hTM, Matrix.one_mulVec]
    show u (Fin.castLE (le_refl Nr) j) / jvec (Fin.castLE (le_refl Nr) j) *
        jvec (Fin.castLE (le_refl Nr) j) = u j
    rw [div_mul_cancel₀ _ (hj (Fin.castLE (le_refl Nr) j))]
    rfl
  · intro Nr J hdet u
    unfold resITST resTST inv_on_host
    rw [Matrix.mulVec_mulVec, Matrix.mul_nonsing_inv _ hdet, Matrix.one_mulVec]
  · exact dft2_inversion
  · intro Nkz Idx dt kz kr2 T iT hinv u
    funext ikz
    show stepSlice ⟨Nkz, Idx, Idx, dt, kz, kr2, T, iT⟩ 0 ikz (u ikz) = u ikz
    unfold stepSlice
    have hone : (fun j => T (u ikz) j *
        Complex.exp (Complex.I *
          ((0 : ℝ) * phaseStep ⟨Nkz, Idx, Idx, dt, kz, kr2, T, iT⟩ ikz j))) =
        T (u ikz) := by
      funext j
      norm_num
    rw [hone]
    exact hinv (u ikz)

/-- C2 witness: each round trip instantiated on concrete one-node data
(identity transform matrices, unit scale vector, the constant field), and
the zero-distance step on the concrete propagator `Pevan`. -/
theorem C2_roundtrip_and_zero_step_witness :
    ((1 : Matrix (Fin 1) (Fin 1) ℂ) * 1 = 1) ∧
    ((fun _ : Fin 1 => (1 : ℂ)) 0 ≠ 0) ∧
    symITST (le_refl 1) (1 : Matrix (Fin 1) (Fin 1) ℂ) (fun _ => 1)
        (symTST (1 : Matrix (Fin 1) (Fin 1) ℂ) (fun _ => 1) (fun _ => 2)) =
      (fun _ => 2) ∧
    IsUnit (Matrix.det (1 : Matrix (Fin 1) (Fin 1) ℂ)) ∧
    resITST (1 : Matrix (Fin 1) (Fin 1) ℂ)
        (resTST (inv_on_host (1 : Matrix (Fin 1) (Fin 1) ℂ)) (fun _ => 2)) =
      (fun _ => 2) ∧
    idft2 1 1 (dft2 1 1 uOne) = uOne ∧
    step Pevan uOne 0 = uOne := by
  refine ⟨by simp, one_ne_zero, ?_, by simp, ?_, ?_, ?_⟩
  · exact C2_roundtrip_and_zero_step.1 1 1 (fun _ => 1) (by simp)
      (fun k => one_ne_zero) (fun _ => 2)
  · exact C2_roundtrip_and_zero_step.2.1 1 1 (by simp) (fun _ => 2)
  · exact C2_roundtrip_and_zero_step.2.2.1 1 1 uOne
  · exact C2_roundtrip_and_zero_step.2.2.2 1 (Fin 1) DType.c128 (fun _ => 0)
      (fun _ => 1) id id (fun v => rfl) uOne

/-- `PropagatorSymmetric` (lib.py:415-547) assembled as a `Propagator`:
QDHT transform pair over a possibly truncated output grid. -/
def mkSymmetric (Nkz Nr NrNew : ℕ) (h : NrNew ≤ Nr) (dt : DType)
    (kz : Fin Nkz → ℝ) (kr2 : Fin Nr → ℝ) (TM : Matrix (Fin Nr) (Fin Nr) ℂ)
    (jvec : Fin Nr → ℂ) : Propagator :=
  ⟨Nkz, Fin Nr, Fin NrNew, dt, kz, kr2, symTST TM jvec, symITST h TM jvec⟩

/-- `PropagatorResampling` (lib.py:550-703) assembled as a `Propagator`:
inverted-DHT forward matrix and direct inverse matrix on the new grid. -/
def mkResampling (Nkz Nr NrNew : ℕ) (dt : DType) (kz : Fin Nkz → ℝ)
    (kr2 : Fin Nr → ℝ) (TM : Matrix (Fin Nr) (Fin Nr) ℂ)
    (invTM : Matrix (Fin NrNew) (Fin Nr) ℂ) : Propagator :=
  ⟨Nkz, Fin Nr, Fin NrNew, dt, kz, kr2, resTST TM, resITST invTM⟩

/-- `PropagatorFFT2` (lib.py:706-800) assembled as a `Propagator`: 2D DFT
pair on the Cartesian grid, output grid equal to the input grid. -/
def mkFFT2 (Nkz Nx Ny : ℕ) (dt : DType) (kz : Fin Nkz → ℝ)
    (kr2 : Fin Nx × Fin Ny → ℝ) : Propagator :=
  ⟨Nkz, Fin Nx × Fin Ny, Fin Nx × Fin Ny, dt, kz, kr2,
    fun u pq => dft2 Nx Ny (fun a b => u (a, b)) pq.1 pq.2,
    fun v pq => idft2 Nx Ny (fun p q => v (p, q)) pq.1 pq.2⟩

/-- The stepping engine is linear in the field whenever the transform pair
is linear: the spectral phase multiplication is diagonal. -/
theorem step_linear (P : Propagator) (hT : IsLinearMap ℂ P.TST)
    (hiT : IsLinearMap ℂ P.iTST) (a b : ℂ)
    (u1 u2 : Fin P.Nkz → P.Idx → ℂ) (dz : ℝ) :
    step P (a • u1 + b • u2) dz = a • step P u1 dz + b • step P u2 dz := by
  funext i
  show stepSlice P dz i ((a • u1 + b • u2) i) =
    a • stepSlice P dz i (u1 i) + b • stepSlice P dz i (u2 i)
  unfold stepSlice
  have hcomb : (a • u1 + b • u2) i = a • u1 i + b • u2 i := rfl
  rw [hcomb, hT.map_add, hT.map_smul, hT.map_smul]
  have hmul : (fun j => (a • P.TST (u1 i) + b • P.TST (u2 i)) j *
      Complex.exp (Complex.I * (dz * phaseStep P i j))) =
      a • (fun j => P.TST (u1 i) j *
        Complex.exp (Complex.I * (dz * phaseStep P i j))) +
      b • (fun j => P.TST (u2 i) j *
        Complex.exp (Complex.I * (dz * phaseStep P i j))) := by
    funext j
    simp only [Pi.add_apply, Pi.smul_apply, smul_eq_mul]
    ring
  rw [hmul, hiT.map_add, hiT.map_smul, hiT.map_smul]

theorem symTST_isLinear {Nr : ℕ} (TM : Matrix (Fin Nr) (Fin Nr) ℂ)
    (jvec : Fin Nr → ℂ) : IsLinearMap ℂ (symTST TM jvec) := by
  constructor
  · intro x y
    unfold symTST
    rw [show (fun k => (x + y) k / jvec k) =
        (fun k => x k / jvec k) + fun k => y k / jvec k from
      funext fun k => by simp [add_div]]
    exact Matrix.mulVec_add TM _ _
  · intro c x
    unfold symTST
    rw [show (fun k => (c • x) k / jvec k) =
        c • fun k => x k / jvec k from
      funext fun k => by simp [smul_eq_mul, mul_div_assoc]]
    exact Matrix.mulVec_smul TM c _

theorem symITST_isLinear {Nr NrNew : ℕ} (h : NrNew ≤ Nr)
    (TM : Matrix (Fin Nr) (Fin Nr) ℂ) (jvec : Fin Nr → ℂ) :
    IsLinearMap ℂ (symITST h TM jvec) := by
  constructor
  · intro x y
    unfold symITST
    funext j
    rw [Matrix.mulVec_add]
    simp only [Pi.add_apply]
    ring
  · intro c x
    unfold symITST
    funext j
    rw [Matrix.mulVec_smul]
    simp only [Pi.smul_apply, smul_eq_mul]
    ring

theorem resTST_isLinear {Nr : ℕ} (TM : Matrix (Fin Nr) (Fin Nr) ℂ) :
    IsLinearMap ℂ (resTST TM) :=
  ⟨fun x y => Matrix.mulVec_add TM x y, fun c x => Matrix.mulVec_smul TM c x⟩

theorem resITST_isLinear {Nr NrNew : ℕ}
    (invTM : Matrix (Fin NrNew) (Fin Nr) ℂ) :
    IsLinearMap ℂ (resITST invTM) :=
  ⟨fun x y => Matrix.mulVec_add invTM x y, fun c x => Matrix.mulVec_smul invTM c x⟩

theorem dft1_add (N : ℕ) (x y : Fin N → ℂ) :
    dft1 N (fun a => x a + y a) = fun p => dft1 N x p + dft1 N y p := by
  funext p
  unfold dft1
  rw [← Finset.sum_add_distrib]
  exact Finset.sum_congr rfl fun a _ => by ring

theorem dft1_smul (N : ℕ) (c : ℂ) (x : Fin N → ℂ) :
    dft1 N (fun a => c * x a) = fun p => c * dft1 N x p := by
  funext p
  unfold dft1
  rw [Finset.mul_sum]
  exact Finset.sum_congr rfl fun a _ => by ring

theorem idft1_add (N : ℕ) (x y : Fin N → ℂ) :
    idft1 N (fun a => x a + y a) = fun p => idft1 N x p + idft1 N y p := by
  funext p
  unfold idft1
  rw [← mul_add, ← Finset.sum_add_distrib]
  exact congrArg _ (Finset.sum_congr rfl fun a _ => by ring)

theorem idft1_smul (N : ℕ) (c : ℂ) (x : Fin N → ℂ) :
    idft1 N (fun a => c * x a) = fun p => c * idft1 N x p := by
  funext t
  unfold idft1
  rw [show ∑ p : Fin N, (c * x p) * dftKernel N (p.val * t.val) =
      c * ∑ p : Fin N, x p * dftKernel N (p.val * t.val) from by
    rw [Finset.mul_sum]
    exact Finset.sum_congr rfl fun p _ => by ring]
  ring

theorem dft2_add (Nx Ny : ℕ) (x y : Fin Nx → Fin Ny → ℂ) :
    dft2 Nx Ny (fun a b => x a b + y a b) =
      fun p q => dft2 Nx Ny x p q + dft2 Nx Ny y p q := by
  funext p q
  unfold dft2
  rw [show (fun a => dft1 Ny (fun b => x a b + y a b) q) =
      fun a => dft1 Ny (x a) q + dft1 Ny (y a) q from
    funext fun a => congrFun (dft1_add Ny (x a) (y a)) q]
  exact congrFun
    (dft1_add Nx (fun a => dft1 Ny (x a) q) fun a => dft1 Ny (y a) q) p

theorem dft2_smul (Nx Ny : ℕ) (c : ℂ) (x : Fin Nx → Fin Ny → ℂ) :
    dft2 Nx Ny (fun a b => c * x a b) = fun p q => c * dft2 Nx Ny x p q := by
  funext p q
  unfold dft2
  rw [show (fun a => dft1 Ny (fun b => c * x a b) q) =
      fun a => c * dft1 Ny (x a) q from
    funext fun a => congrFun (dft1_smul Ny c (x a)) q]
  exact congrFun (dft1_smul Nx c fun a => dft1 Ny (x a) q) p

theorem idft2_add (Nx Ny : ℕ) (x y : Fin Nx → Fin Ny → ℂ) :
    idft2 Nx Ny (fun a b => x a b + y a b) =
      fun p q => idft2 Nx Ny x p q + idft2 Nx Ny y p q := by
  funext p q
  unfold idft2
  rw [show (fun t => idft1 Ny (fun b => x t b + y t b) q) =
      fun t => idft1 Ny (x t) q + idft1 Ny (y t) q from
    funext fun t => congrFun (idft1_add Ny (x t) (y t)) q]
  exact congrFun
    (idft1_add Nx (fun t => idft1 Ny (x t) q) fun t => idft1 Ny (y t) q) p

theorem idft2_smul (Nx Ny : ℕ) (c : ℂ) (x : Fin Nx → Fin Ny → ℂ) :
    idft2 Nx Ny (fun a b => c * x a b) = fun p q => c * idft2 Nx Ny x p q := by
  funext p q
  unfold idft2
  rw [show (fun t => idft1 Ny (fun b => c * x t b) q) =
      fun t => c * idft1 Ny (x t) q from
    funext fun t => congrFun (idft1_smul Ny c (x t)) q]
  exact congrFun (idft1_smul Nx c fun t => idft1 Ny (x t) q) p

theorem fft2TST_isLinear (Nx Ny : ℕ) :
    IsLinearMap ℂ (fun (u : Fin Nx × Fin Ny → ℂ) (pq : Fin Nx × Fin Ny) =>
      dft2 Nx Ny (fun a b => u (a, b)) pq.1 pq.2) := by
  constructor
  · intro u v
    funext pq
    show dft2 Nx Ny (fun a b => (u + v) (a, b)) pq.1 pq.2 = _
    rw [show (fun a b => (u + v) (a, b)) =
        fun a b => u (a, b) + v (a, b) from rfl, dft2_add]
    rfl
  · intro c u
    funext pq
    show dft2 Nx Ny (fun a b => (c • u) (a, b)) pq.1 pq.2 = _
    rw [show (fun a b => (c • u) (a, b)) =
        fun a b => c * u (a, b) from rfl, dft2_smul]
    rfl

theorem fft2iTST_isLinear (Nx Ny : ℕ) :
    IsLinearMap ℂ (fun (v : Fin Nx × Fin Ny → ℂ) (pq : Fin Nx × Fin Ny) =>
      idft2 Nx Ny (fun p q => v (p, q)) pq.1 pq.2) := by
  constructor
  · intro u v
    funext pq
    show idft2 Nx Ny (fun p q => (u + v) (p, q)) pq.1 pq.2 = _
    rw [show (fun p q => (u + v) (p, q)) =
        fun p q => u (p, q) + v (p, q) from rfl, idft2_add]
    rfl
  · intro c u
    funext pq
    show idft2 Nx Ny (fun p q => (c • u) (p, q)) pq.1 pq.2 = _
    rw [show (fun p q => (c • u) (p, q)) =
        fun p q => c * u (p, q) from rfl, idft2_smul]
    rfl

/-- Pointwise restatement of `step_linear`, matching the spec's
`step(a·u1 + b·u2, dz) = a·step(u1,dz) + b·step(u2,dz)`. -/
theorem step_linear_pointwise (P : Propagator) (hT : IsLinearMap ℂ P.TST)
    (hiT : IsLinearMap ℂ P.iTST) (a b : ℂ)
    (u1 u2 : Fin P.Nkz → P.Idx → ℂ) (dz : ℝ) :
    step P (fun i j => a * u1 i j + b * u2 i j) dz =
      fun i j => a * step P u1 dz i j + b * step P u2 dz i j := by
  have hc : (fun (i : Fin P.Nkz) (j : P.Idx) => a * u1 i j + b * u2 i j) =
      a • u1 + b • u2 := by
    funext i j
    simp [Pi.smul_apply, smul_eq_mul]
  rw [hc, step_linear P hT hiT a b u1 u2 dz]
  funext i j
  simp [Pi.smul_apply, smul_eq_mul]

/-- C4: the single-step propagation is linear in the field, for each of
the three propagator variants, for arbitrary complex scalars `a`, `b`
and any distance `dz`. -/
theorem C4_step_linearity :
    (∀ (Nkz Nr NrNew : ℕ) (h : NrNew ≤ Nr) (dt : DType) (kz : Fin Nkz → ℝ)
        (kr2 : Fin Nr → ℝ) (TM : Matrix (Fin Nr) (Fin Nr) ℂ)
        (jvec : Fin Nr → ℂ) (a b : ℂ) (u1 u2 : Fin Nkz → Fin Nr → ℂ)
        (dz : ℝ),
        step (mkSymmetric Nkz Nr NrNew h dt kz kr2 TM jvec)
            (fun i j => a * u1 i j + b * u2 i j) dz =
          fun i j =>
            a * step (mkSymmetric Nkz Nr NrNew h dt kz kr2 TM jvec) u1 dz i j +
            b * step (mkSymmetric Nkz Nr NrNew h dt kz kr2 TM jvec) u2 dz i j) ∧
    (∀ (Nkz Nr NrNew : ℕ) (dt : DType) (kz : Fin Nkz → ℝ)
        (kr2 : Fin Nr → ℝ) (TM : Matrix (Fin Nr) (Fin Nr) ℂ)
        (invTM : Matrix (Fin NrNew) (Fin Nr) ℂ) (a b : ℂ)
        (u1 u2 : Fin Nkz → Fin Nr → ℂ) (dz : ℝ),
        step (mkResampling Nkz Nr NrNew dt kz kr2 TM invTM)
            (fun i j => a * u1 i j + b * u2 i j) dz =
          fun i j =>
            a * step (mkResampling Nkz Nr NrNew dt kz kr2 TM invTM) u1 dz i j +
            b * step (mkResampling Nkz Nr NrNew dt kz kr2 TM invTM) u2 dz i j) ∧
    (∀ (Nkz Nx Ny : ℕ) (dt : DType) (kz : Fin Nkz → ℝ)
        (kr2 : Fin Nx × Fin Ny → ℝ) (a b : ℂ)
        (u1 u2 : Fin Nkz → Fin Nx × Fin Ny → ℂ) (dz : ℝ),
        step (mkFFT2 Nkz Nx Ny dt kz kr2)
            (fun i j => a * u1 i j + b * u2 i j) dz =
          fun i j =>
            a * step (mkFFT2 Nkz Nx Ny dt kz kr2) u1 dz i j +
            b * step (mkFFT2 Nkz Nx Ny dt kz kr2) u2 dz i j) := by
  refine ⟨?_, ?_, ?_⟩
  · intro Nkz Nr NrNew h dt kz kr2 TM jvec a b u1 u2 dz
    exact step_linear_pointwise (mkSymmetric Nkz Nr NrNew h dt kz kr2 TM jvec)
      (symTST_isLinear TM jvec) (symITST_isLinear h TM jvec) a b u1 u2 dz
  · intro Nkz Nr NrNew dt kz kr2 TM invTM a b u1 u2 dz
    exact step_linear_pointwise (mkResampling Nkz Nr NrNew dt kz kr2 TM invTM)
      (resTST_isLinear TM) (resITST_isLinear invTM) a b u1 u2 dz
  · intro Nkz Nx Ny dt kz kr2 a b u1 u2 dz
    exact step_linear_pointwise (mkFFT2 Nkz Nx Ny dt kz kr2)
      (fft2TST_isLinear Nx Ny) (fft2iTST_isLinear Nx Ny) a b u1 u2 dz

/-- C4 witness: linearity of the symmetric variant instantiated on a
concrete one-node grid with `a = 2`, `b = 3`, `dz = 1`. -/
theorem C4_step_linearity_witness :
    1 ≤ 1 ∧
      step (mkSymmetric 1 1 1 (le_refl 1) DType.c128 (fun _ => 0)
          (fun _ => 1) 1 fun _ => 1)
          (fun i j => 2 * uOne i j + 3 * uOne i j) 1 =
        fun i j =>
          2 * step (mkSymmetric 1 1 1 (le_refl 1) DType.c128 (fun _ => 0)
              (fun _ => 1) 1 fun _ => 1) uOne 1 i j +
          3 * step (mkSymmetric 1 1 1 (le_refl 1) DType.c128 (fun _ => 0)
              (fun _ => 1) 1 fun _ => 1) uOne 1 i j :=
  ⟨le_refl 1,
    C4_step_linearity.1 1 1 1 (le_refl 1) DType.c128 (fun _ => 0)
      (fun _ => 1) 1 (fun _ => 1) 2 3 uOne uOne 1⟩

/-! Grid Builder.  `scipy.special.jn_zeros(mode, n)` returns the first `n`
positive zeros of the Bessel function of order `mode`; it is abstracted by
an oracle `z : ℕ → ℕ → ℝ` with `z mode k` the `(k+1)`-th positive zero, so
`jn_zeros z mode n` lists the first `n` of them. -/

/-- The external primitive `jn_zeros(mode, n)`: first `n` positive Bessel
zeros, taken from the oracle `z`. -/
def jn_zeros (z : ℕ → ℕ → ℝ) (mode n : ℕ) : List ℝ :=
  (List.range n).map (z mode)

/-- `PropagatorCommon.init_kr` (lib.py:93-107): for `mode != 0` the root
list is `0` prepended to the first `Nr` positive zeros, otherwise the
first `Nr+1` positive zeros; the last entry becomes `alpha_np1`, the rest
divided by `Rmax` become `kr`.  Returns `(kr, alpha_np1)`. -/
def init_kr (z : ℕ → ℕ → ℝ) (mode : ℕ) (Rmax : ℝ) (Nr : ℕ) : List ℝ × ℝ :=
  let alpha : List ℝ :=
    if mode ≠ 0 then 0 :: jn_zeros z mode Nr else jn_zeros z 0 (Nr + 1)
  let alpha_np1 := alpha.getLastD 0
  ((alpha.dropLast).map (fun a => a / Rmax), alpha_np1)

/-- `PropagatorCommon.init_r_symmetric` (lib.py:123-143): `Nr+1` positive
zeros of the configured mode order, the last calibrating the radius grid
`Rmax * alpha / alpha_np1`.  Returns `(r, Rmax, Nr)`. -/
def init_r_symmetric (z : ℕ → ℕ → ℝ) (mode : ℕ) (Rmax : ℝ) (Nr : ℕ) :
    List ℝ × ℝ × ℕ :=
  let alpha := jn_zeros z mode (Nr + 1)
  let alpha_np1 := alpha.getLastD 0
  ((alpha.dropLast).map (fun a => Rmax * a / alpha_np1), Rmax, Nr)

theorem jn_zeros_succ (z : ℕ → ℕ → ℝ) (mode n : ℕ) :
    jn_zeros z mode (n + 1) = (List.range n).map (z mode) ++ [z mode n] := by
  unfold jn_zeros
  rw [List.range_succ, List.map_append]
  rfl

/-- C5 amended (restricted to mode order 0): the spectral radial grid is
`kr[j] = alpha[j] / Rmax` where `alpha` lists the first `Nr` of the `Nr+1`
positive roots, the spectral scale `alpha_np1` is the last root, and the
symmetric radial grid is built from those same roots, calibrated by the
same last root. -/
theorem C5_kr_from_bessel_roots_mode0 (z : ℕ → ℕ → ℝ) (Rmax : ℝ) (Nr : ℕ) :
    (init_kr z 0 Rmax Nr).1 = (List.range Nr).map (fun k => z 0 k / Rmax) ∧
    (init_kr z 0 Rmax Nr).2 = z 0 Nr ∧
    (init_r_symmetric z 0 Rmax Nr).1 =
      (List.range Nr).map (fun k => Rmax * z 0 k / z 0 Nr) := by
  have halpha : jn_zeros z 0 (Nr + 1) =
      (List.range Nr).map (z 0) ++ [z 0 Nr] := jn_zeros_succ z 0 Nr
  refine ⟨?_, ?_, ?_⟩
  · show ((if (0 : ℕ) ≠ 0 then 0 :: jn_zeros z 0 Nr
        else jn_zeros z 0 (Nr + 1)).dropLast).map (fun a => a / Rmax) = _
    rw [if_neg (by simp), halpha, List.dropLast_concat, List.map_map]
    rfl
  · show (if (0 : ℕ) ≠ 0 then 0 :: jn_zeros z 0 Nr
        else jn_zeros z 0 (Nr + 1)).getLastD 0 = _
    rw [if_neg (by simp), halpha, List.getLastD_concat]
  · show ((jn_zeros z 0 (Nr + 1)).dropLast).map
        (fun a => Rmax * a / (jn_zeros z 0 (Nr + 1)).getLastD 0) = _
    rw [halpha, List.dropLast_concat, List.getLastD_concat, List.map_map]
    rfl

/-- Strictly increasing positive stand-in for the Bessel-zero oracle,
used to exhibit the nonzero-mode behaviour concretely. -/
def zLin : ℕ → ℕ → ℝ := fun _ k => k + 1

/-- C5 counterexample: with mode order `1`, `Nr = 1`, `Rmax = 1` the code
produces `kr = [0]` (it prepends `0` to the root list and drops the only
positive root), while the claim predicts `kr = [first positive root] = [1]`.
The spectral grid is not `alpha[j] / Rmax` over the positive roots for
nonzero mode orders. -/
theorem C5_kr_nonzero_mode_cex :
    (init_kr zLin 1 1 1).1 = [0] ∧ [zLin 1 0 / 1] = [1] ∧
      (init_kr zLin 1 1 1).1 ≠ [zLin 1 0 / 1] := by
  have h1 : (init_kr zLin 1 1 1).1 = [0] := by
    show ((if (1 : ℕ) ≠ 0 then 0 :: jn_zeros zLin 1 1
        else jn_zeros zLin 1 2).dropLast).map (fun a => a / 1) = _
    rw [if_pos (by simp)]
    show (([0, zLin 1 0] : List ℝ).dropLast).map (fun a => a / 1) = [0]
    norm_num
  have h2 : [zLin 1 0 / 1] = ([1] : List ℝ) := by norm_num [zLin]
  refine ⟨h1, h2, ?_⟩
  rw [h1, h2]
  intro hcontra
  have : (0 : ℝ) = 1 := List.head_eq_of_cons_eq hcontra
  norm_num at this

/-- Resolution of the truncation request in `PropagatorSymmetric.__init__`
(lib.py:480-493): `Nr_new = None` keeps `Nr`; `Nr_new >= Nr` executes
`self.Nr_new = sel.Nr`, a reference to the undefined name `sel`, raising
`NameError`; `Nr_new < Nr` truncates. -/
def resolveTruncation (Nr : ℕ) (NrNew : Option ℕ) : Except String ℕ :=
  match NrNew with
  | none => Except.ok Nr
  | some n =>
      if Nr ≤ n then Except.error "NameError: sel is not defined"
      else Except.ok n

/-- C6: requesting `Nr_new >= Nr` does not resolve to "no truncation" —
it raises `NameError` through the undefined name `sel` (lib.py:486) —
while `Nr_new = None` and `Nr_new < Nr` behave normally.  Evaluated at
`Nr = 4` with requests `4`, `5`, `None` and `3`. -/
theorem C6_trunc_ge_raises_NameError :
    resolveTruncation 4 (some 4) =
        Except.error "NameError: sel is not defined" ∧
      resolveTruncation 4 (some 5) =
        Except.error "NameError: sel is not defined" ∧
      resolveTruncation 4 none = Except.ok 4 ∧
      resolveTruncation 4 (some 3) = Except.ok 3 :=
  ⟨rfl, rfl, rfl, rfl⟩

/-- Models `np.linspace(a, b, n)` with `endpoint=True`: `n` evenly spaced
samples from `a` to `b`; a single sample is `[a]`. -/
def linspace (a b : ℝ) (n : ℕ) : Fin n → ℝ :=
  fun i => if n = 1 then a else a + i.val * (b - a) / ((n : ℝ) - 1)

/-- `PropagatorCommon.init_xykxy_fft2` (lib.py:173-229), axis setup part:
builds `x`, `y` by `linspace`, then immediately evaluates
`dx = x[1] - x[0]` and `dy = y[1] - y[0]` (lib.py:208-209) — an
`IndexError` whenever an axis has fewer than two samples.  The degenerate
single-sample branches (lib.py:211-217) appear after those reads, so they
are kept here verbatim but can never fire.  Returns `(x, y, dx, dy)`. -/
def init_xykxy_fft2 (Lx : ℝ) (Nx : ℕ) (Ly : ℝ) (Ny : ℕ) :
    Except String ((Fin Nx → ℝ) × (Fin Ny → ℝ) × ℝ × ℝ) :=
  let x := linspace (-Lx / 2) (Lx / 2) Nx
  let y := linspace (-Ly / 2) (Ly / 2) Ny
  if hx : 2 ≤ Nx then
    if hy : 2 ≤ Ny then
      let dx := x ⟨1, by omega⟩ - x ⟨0, by omega⟩
      let dy := y ⟨1, by omega⟩ - y ⟨0, by omega⟩
      let xf := if Nx = 1 ∧ 1 < Ny then (fun _ : Fin Nx => (0 : ℝ)) else x
      let dxf := if Nx = 1 ∧ 1 < Ny then dy else dx
      let yf := if Ny = 1 ∧ 1 < Nx then (fun _ : Fin Ny => (0 : ℝ)) else y
      let dyf := if Ny = 1 ∧ 1 < Nx then dx else dy
      Except.ok (xf, yf, dxf, dyf)
    else Except.error "IndexError"
  else Except.error "IndexError"

/-- C7: constructing the FFT2 grids with a size-1 axis does not succeed —
`dx = x[1] - x[0]` (or `dy`) raises `IndexError` before the degenerate
single-sample branch is reached.  Evaluated at `Nx = 1, Ny = 3` and at
`Nx = 3, Ny = 1`; a two-sample-per-axis grid succeeds. -/
theorem C7_fft2_degenerate_axis_raises :
    init_xykxy_fft2 1 1 1 3 = Except.error "IndexError" ∧
      init_xykxy_fft2 1 3 1 1 = Except.error "IndexError" ∧
      (init_xykxy_fft2 1 2 1 2).isOk = true := by
  refine ⟨rfl, rfl, rfl⟩

/-! Call-level entry points with the dtype precondition.  Fields carry a
dtype tag; the source asserts `u.dtype == self.dtype` in `step`
(lib.py:248), `steps` (lib.py:297) and `initiate_stepping` (lib.py:344),
and nowhere in `stepping` (lib.py:359-386) or `get_Ez` (lib.py:388-412). -/

/-- A caller-supplied field array with its numpy dtype tag. -/
structure TField (P : Propagator) where
  dtype : DType
  data : Fin P.Nkz → P.Idx → ℂ

/-- A caller-supplied output buffer on the new grid with its dtype tag. -/
structure TFieldNew (P : Propagator) where
  dtype : DType
  data : Fin P.Nkz → P.IdxNew → ℂ

/-- `step` including its `assert u.dtype == self.dtype` (lib.py:248). -/
def stepChecked (P : Propagator) (u : TField P) (dz : ℝ) :
    Except String (Fin P.Nkz → P.IdxNew → ℂ) :=
  if u.dtype = P.dtype then Except.ok (step P u.data dz)
  else Except.error "AssertionError"

/-- Models `np.diff`: consecutive differences. -/
def np_diff (l : List ℝ) : List ℝ :=
  (l.zip l.tail).map fun p => p.2 - p.1

/-- `steps` with its full argument handling (lib.py:277-303): the dtype
assertion; `z_axis`, when given, overrides `dz` as
`np.r_[z_axis[0], np.diff(z_axis)]` (an `IndexError` on an empty
`z_axis`); a defaulted `dz=None` fails `len(None)` with `TypeError`; then
the empty-schedule short circuit of `steps`. -/
def stepsChecked (P : Propagator) (u : TField P) (dz : Option (List ℝ))
    (z_axis : Option (List ℝ)) :
    Except String (Option (List (Fin P.Nkz → P.IdxNew → ℂ))) :=
  if u.dtype = P.dtype then
    match z_axis with
    | some [] => Except.error "IndexError"
    | some (z0 :: rest) => Except.ok (steps P u.data (z0 :: np_diff (z0 :: rest)))
    | none =>
        match dz with
        | some dzl => Except.ok (steps P u.data dzl)
        | none => Except.error "TypeError"
  else Except.error "AssertionError"

/-- `initiate_stepping` including its dtype assertion (lib.py:344). -/
def initiate_steppingChecked (P : Propagator) (u : TField P) :
    Except String (SteppingState P) :=
  if u.dtype = P.dtype then Except.ok (initiate_stepping P u.data)
  else Except.error "AssertionError"

/-- `stepping` (lib.py:359-386): no dtype assertion is performed; an
absent output buffer is allocated with the propagator dtype, a supplied
buffer keeps its own tag (numpy slice assignment coerces silently). -/
def steppingChecked (P : Propagator) (st : SteppingState P) (dz : ℝ)
    (u_out : Option (TFieldNew P)) :
    Except String (TFieldNew P × SteppingState P) :=
  match u_out with
  | none => Except.ok (⟨P.dtype, (stepping P st dz).1⟩, (stepping P st dz).2)
  | some buf => Except.ok (⟨buf.dtype, (stepping P st dz).1⟩, (stepping P st dz).2)

/-- `PropagatorCommon.get_Ez` (lib.py:388-412): per slice, forward
transform, multiply by `-kx_2d / kz_loc` with the absolute-value local
wavenumber, inverse transform.  (Division by a vanishing `kz_loc` is junk
in both models: `0` here, `inf`/`nan` in numpy.) -/
def get_Ez (P : Propagator) (kx2d : P.Idx → ℝ)
    (ux : Fin P.Nkz → P.Idx → ℂ) : Fin P.Nkz → P.IdxNew → ℂ :=
  fun i => P.iTST fun j =>
    P.TST (ux i) j * ((-kx2d j / ikLoc P i j : ℝ) : ℂ)

/-- `get_Ez` at call level: the source performs no dtype assertion on
`ux` (lib.py:397-412 proceed straight to the computation). -/
def get_EzChecked (P : Propagator) (kx2d : P.Idx → ℝ) (ux : TField P) :
    Except String (Fin P.Nkz → P.IdxNew → ℂ) :=
  Except.ok (get_Ez P kx2d ux.data)

/-- C8 counterexample: a field tagged `complex64` against a `complex128`
propagator is a dtype mismatch, yet `get_Ez` returns a normal result (no
precondition violation is raised), and `stepping` likewise accepts a
mismatched output buffer. -/
theorem C8_getEz_accepts_mismatched_dtype :
    (⟨DType.c64, uOne⟩ : TField Pevan).dtype ≠ Pevan.dtype ∧
      get_EzChecked Pevan (fun _ => 1) ⟨DType.c64, uOne⟩ =
        Except.ok (get_Ez Pevan (fun _ => 1) uOne) ∧
      (steppingChecked Pevan (initiate_stepping Pevan uOne) 1
          (some ⟨DType.c64, uOne⟩)).isOk = true := by
  refine ⟨by simp, rfl, rfl⟩

/-- C8 amended: `step`, `steps` and `initiate_stepping` raise the dtype
precondition violation immediately on a mismatched field; `stepping`
takes no input field and never checks its optional output buffer, and
`get_Ez` performs no dtype check at all — both return normally. -/
theorem C8_dtype_check_coverage (P : Propagator) (u : TField P)
    (hmm : u.dtype ≠ P.dtype) (dz : ℝ) (dzs : Option (List ℝ))
    (za : Option (List ℝ)) (kx2d : P.Idx → ℝ) (st : SteppingState P)
    (buf : Option (TFieldNew P)) :
    stepChecked P u dz = Except.error "AssertionError" ∧
      stepsChecked P u dzs za = Except.error "AssertionError" ∧
      initiate_steppingChecked P u = Except.error "AssertionError" ∧
      (get_EzChecked P kx2d u).isOk = true ∧
      (steppingChecked P st dz buf).isOk = true := by
  refine ⟨?_, ?_, ?_, rfl, ?_⟩
  · unfold stepChecked
    rw [if_neg hmm]
  · unfold stepsChecked
    rw [if_neg hmm]
  · unfold initiate_steppingChecked
    rw [if_neg hmm]
  · cases buf <;> rfl

/-- C8 witness: the amended coverage statement instantiated on `Pevan`
with a `complex64`-tagged field. -/
theorem C8_dtype_check_coverage_witness :
    (⟨DType.c64, uOne⟩ : TField Pevan).dtype ≠ Pevan.dtype ∧
      (stepChecked Pevan ⟨DType.c64, uOne⟩ 1 = Except.error "AssertionError" ∧
        stepsChecked Pevan ⟨DType.c64, uOne⟩ (some [1]) none =
          Except.error "AssertionError" ∧
        initiate_steppingChecked Pevan ⟨DType.c64, uOne⟩ =
          Except.error "AssertionError" ∧
        (get_EzChecked Pevan (fun _ => 1) ⟨DType.c64, uOne⟩).isOk = true ∧
        (steppingChecked Pevan (initiate_stepping Pevan uOne) 1
            none).isOk = true) :=
  ⟨by simp,
    C8_dtype_check_coverage Pevan ⟨DType.c64, uOne⟩ (by simp) 1 (some [1])
      none (fun _ => 1) (initiate_stepping Pevan uOne) none⟩

/-- C9: with a matching dtype, `steps` called with the empty schedule is
not an error: the length test (lib.py:301-303) short-circuits to `None`
before any transform or phase work. -/
theorem C9_empty_schedule_returns_none (P : Propagator) (u : TField P)
    (hdt : u.dtype = P.dtype) :
    stepsChecked P u (some []) none = Except.ok none := by
  unfold stepsChecked
  rw [if_pos hdt]
  rfl

/-- C9 witness: the empty-schedule short circuit on the concrete
propagator `Pevan` with a matching `complex128` field. -/
theorem C9_empty_schedule_returns_none_witness :
    (⟨DType.c128, uOne⟩ : TField Pevan).dtype = Pevan.dtype ∧
      stepsChecked Pevan ⟨DType.c128, uOne⟩ (some []) none = Except.ok none :=
  ⟨rfl, C9_empty_schedule_returns_none Pevan ⟨DType.c128, uOne⟩ rfl⟩

/-! The allocation discipline of `step` (lib.py:250-268): with
`overwrite=False` the loop writes each slice of a newly allocated
`u_step` (`np.empty`) and only ever reads the input `u`.  The loop is
rendered imperatively: the state is the pair (input array, output array)
and each iteration updates one output slice. -/

/-- Loop body of `step` for one `ikz` (lib.py:259-268): read slice `ikz`
of the input, compute, write slice `ikz` of the output.  The input
component is untouched — the body contains no store to `u`. -/
def stepBody (P : Propagator) (dz : ℝ)
    (m : (Fin P.Nkz → P.Idx → ℂ) × (Fin P.Nkz → P.IdxNew → ℂ))
    (ikz : Fin P.Nkz) :
    (Fin P.Nkz → P.Idx → ℂ) × (Fin P.Nkz → P.IdxNew → ℂ) :=
  (m.1, Function.update m.2 ikz (stepSlice P dz ikz (m.1 ikz)))

/-- Imperative rendering of `step` with `overwrite` left `False`: the
output buffer starts as `np.empty` — arbitrary contents `out0` — and the
loop runs over every `ikz`.  Returns the final (input, output) pair. -/
def stepImp (P : Propagator) (u : Fin P.Nkz → P.Idx → ℂ) (dz : ℝ)
    (out0 : Fin P.Nkz → P.IdxNew → ℂ) :
    (Fin P.Nkz → P.Idx → ℂ) × (Fin P.Nkz → P.IdxNew → ℂ) :=
  (List.finRange P.Nkz).foldl (stepBody P dz) (u, out0)

theorem stepImp_loop (P : Propagator) (dz : ℝ) (u : Fin P.Nkz → P.Idx → ℂ) :
    ∀ (l : List (Fin P.Nkz)) (out : Fin P.Nkz → P.IdxNew → ℂ),
      l.foldl (stepBody P dz) (u, out) =
        (u, fun i => if i ∈ l then stepSlice P dz i (u i) else out i) := by
  intro l
  induction l with
  | nil =>
      intro out
      exact Prod.ext rfl (funext fun i => by simp)
  | cons hd tl ih =>
      intro out
      rw [List.foldl_cons,
        show stepBody P dz (u, out) hd =
          (u, Function.update out hd (stepSlice P dz hd (u hd))) from rfl,
        ih]
      refine Prod.ext rfl (funext fun i => ?_)
      rcases eq_or_ne i hd with h | h
      · subst h
        by_cases hmem : i ∈ tl <;> simp [hmem]
      · by_cases hmem : i ∈ tl <;>
          simp [hmem, h, Function.update_noteq h, List.mem_cons]

/-- C10: `step` with `overwrite=False` leaves the caller's input array
unmodified and fills a fresh output — the loop's final input component is
the original `u`, and the output is `step P u dz` regardless of the
initial contents of the allocated buffer. -/
theorem C10_step_no_overwrite_frame (P : Propagator)
    (u : Fin P.Nkz → P.Idx → ℂ) (dz : ℝ)
    (out0 : Fin P.Nkz → P.IdxNew → ℂ) :
    stepImp P u dz out0 = (u, step P u dz) := by
  unfold stepImp
  rw [stepImp_loop]
  exact congrArg (Prod.mk u)
    (funext fun i => by rw [if_pos (List.mem_finRange i)]; rfl)
